import Mathlib

/-!
Verification of the MDP solver library (dynamic programming, Monte Carlo,
expected SARSA and tile coding) against its specification.

Rust HashMaps are embedded as association lists (List (K × V)) with
first-match lookup; all keys inserted by the modelled code are distinct, so
first-match lookup agrees with HashMap semantics.  f64 arithmetic is
embedded as exact rational arithmetic.
-/

section MapModel

variable {K V : Type} [DecidableEq K]

/-- Association-list lookup, modelling HashMap::get. -/
def map_get : List (K × V) → K → Option V
  | [], _ => none
  | (k2, v) :: rest, k => if k2 = k then some v else map_get rest k

/-- Association-list insertion, modelling HashMap::insert: replaces the
binding when the key is present, else appends a fresh binding. -/
def map_insert : List (K × V) → K → V → List (K × V)
  | [], k, v => [(k, v)]
  | (k2, v2) :: rest, k, v =>
    if k2 = k then (k, v) :: rest else (k2, v2) :: map_insert rest k v

theorem map_get_insert_self (m : List (K × V)) (k : K) (v : V) :
    map_get (map_insert m k v) k = some v := by
  induction m with
  | nil => simp [map_insert, map_get]
  | cons p rest ih =>
    obtain ⟨k2, v2⟩ := p
    by_cases h : k2 = k <;> simp [map_insert, map_get, h, ih]

theorem map_get_insert_other (m : List (K × V)) (k k2 : K) (v : V)
    (h : k ≠ k2) : map_get (map_insert m k v) k2 = map_get m k2 := by
  induction m with
  | nil => simp [map_insert, map_get, h]
  | cons p rest ih =>
    obtain ⟨k3, v3⟩ := p
    by_cases h3 : k3 = k
    · subst h3
      simp [map_insert, map_get, h]
    · simp [map_insert, map_get, h3]
      by_cases h4 : k3 = k2 <;> simp [map_get, h4, ih]

theorem map_get_mem {m : List (K × V)} {k : K} {v : V}
    (h : map_get m k = some v) : (k, v) ∈ m := by
  induction m with
  | nil => simp [map_get] at h
  | cons p rest ih =>
    obtain ⟨k2, v2⟩ := p
    by_cases h2 : k2 = k
    · subst h2
      simp [map_get] at h
      simp [h]
    · simp [map_get, h2] at h
      exact List.mem_cons_of_mem _ (ih h)

theorem map_get_isSome_iff_mem_keys {m : List (K × V)} {k : K} :
    (map_get m k).isSome ↔ k ∈ m.map Prod.fst := by
  induction m with
  | nil => simp [map_get]
  | cons p rest ih =>
    obtain ⟨k2, v2⟩ := p
    by_cases h2 : k2 = k
    · subst h2
      simp [map_get]
    · simp [map_get, h2, ih, Ne.symm h2]

theorem map_get_of_mem_nodup {m : List (K × V)} {k : K} {v : V}
    (hn : (m.map Prod.fst).Nodup) (h : (k, v) ∈ m) : map_get m k = some v := by
  induction m with
  | nil => simp at h
  | cons p rest ih =>
    obtain ⟨k2, v2⟩ := p
    simp only [List.map_cons, List.nodup_cons] at hn
    rcases List.mem_cons.mp h with h1 | h1
    · injection h1 with hk hv
      subst hk
      subst hv
      simp [map_get]
    · have hk : k2 ≠ k := by
        intro he
        subst he
        exact hn.1 (List.mem_map.mpr ⟨(k2, v), h1, rfl⟩)
      simp [map_get, hk]
      exact ih hn.2 h1

end MapModel

section FoldMax

/-- The maximum of a list of rationals, modelling
iter().fold(f64::NEG_INFINITY, f64::max): on a non-empty list the
negative-infinity seed is absorbed by the first max, and the code only
applies the fold to non-empty action lists. -/
def fold_max : List ℚ → Option ℚ
  | [] => none
  | v :: rest => some (rest.foldl max v)

theorem foldl_max_le (l : List ℚ) : ∀ v : ℚ, v ≤ l.foldl max v := by
  induction l with
  | nil => intro v; simp
  | cons x rest ih =>
    intro v
    calc v ≤ max v x := le_max_left v x
    _ ≤ rest.foldl max (max v x) := ih (max v x)

theorem le_foldl_max {l : List ℚ} {x : ℚ} (h : x ∈ l) :
    ∀ v : ℚ, x ≤ l.foldl max v := by
  induction l with
  | nil => simp at h
  | cons y rest ih =>
    intro v
    rcases List.mem_cons.mp h with h1 | h1
    · subst h1
      calc x ≤ max v x := le_max_right v x
      _ ≤ rest.foldl max (max v x) := foldl_max_le rest (max v x)
    · exact ih h1 (max v y)

theorem foldl_max_mem (l : List ℚ) :
    ∀ v : ℚ, l.foldl max v = v ∨ l.foldl max v ∈ l := by
  induction l with
  | nil => intro v; left; rfl
  | cons x rest ih =>
    intro v
    rw [List.foldl_cons]
    rcases ih (max v x) with h | h
    · rw [h]
      rcases max_cases v x with ⟨he, _⟩ | ⟨he, _⟩
      · left
        exact he
      · right
        rw [he]
        exact List.mem_cons_self x rest
    · right
      exact List.mem_cons_of_mem x h

theorem fold_max_le {l : List ℚ} {m x : ℚ} (hm : fold_max l = some m)
    (hx : x ∈ l) : x ≤ m := by
  cases l with
  | nil => simp at hx
  | cons y rest =>
    simp only [fold_max, Option.some.injEq] at hm
    subst hm
    rcases List.mem_cons.mp hx with h1 | h1
    · subst h1
      exact foldl_max_le rest x
    · exact le_foldl_max h1 y

theorem fold_max_mem {l : List ℚ} {m : ℚ} (hm : fold_max l = some m) :
    m ∈ l := by
  cases l with
  | nil => simp [fold_max] at hm
  | cons y rest =>
    simp only [fold_max, Option.some.injEq] at hm
    subst hm
    rcases foldl_max_mem rest y with h | h
    · simp [h]
    · exact List.mem_cons_of_mem _ h

theorem fold_max_isSome {l : List ℚ} (h : l ≠ []) : (fold_max l).isSome := by
  cases l with
  | nil => exact absurd rfl h
  | cons y rest => simp [fold_max]

end FoldMax

section DataModel

/-- A possible destination of an action: probability of reaching it and the
reward collected on the way (solver/mod.rs, struct ActionDestination). -/
structure ActionDestination where
  probability : ℚ
  reward : ℚ
deriving DecidableEq

/-- Destination states of one action with probabilities and rewards
(solver/mod.rs, struct ActionResult). -/
structure ActionResult (S : Type) where
  dest_states : List (S × ActionDestination)
deriving DecidableEq

/-- Possible actions in one state; empty iff the state is final
(solver/mod.rs, struct StateActions). -/
structure StateActions (S A : Type) where
  actions : List (A × ActionResult S)
deriving DecidableEq

/-- An explicit environment graph (solver/mod.rs, struct Env). -/
structure Env (S A : Type) where
  states : List (S × StateActions S A)
deriving DecidableEq

/-- Action probabilities in one state (solver/mod.rs, struct PolicyState). -/
structure PolicyState (A : Type) where
  actions : List (A × ℚ)
deriving DecidableEq

/-- A policy: per-state action distributions (solver/mod.rs, struct Policy). -/
structure Policy (S A : Type) where
  states : List (S × PolicyState A)
deriving DecidableEq

end DataModel

section DynamicProgramming

variable {S A : Type} [DecidableEq S] [DecidableEq A]

/-- The action value given the action results and the state-value function
(solver/mod.rs, fn get_action_value): sum over destination states of
probability * (reward + discount * value), missing values default to 0. -/
def get_action_value (action : ActionResult S) (state_values : List (S × ℚ))
    (discount : ℚ) : ℚ :=
  (action.dest_states.map (fun p =>
    p.2.probability * (p.2.reward + discount * ((map_get state_values p.1).getD 0)))).sum

/-- The new value of one non-terminal state inside evaluate_policy
(solver/mod.rs lines 118-123): sum over the environment actions of the
action value weighted by the policy probability (0 when the policy does not
list the action). -/
def eval_state_value (state_policy : PolicyState A) (state_actions : StateActions S A)
    (prev_state_values : List (S × ℚ)) (discount : ℚ) : ℚ :=
  (state_actions.actions.map (fun p =>
    get_action_value p.2 prev_state_values discount *
      ((map_get state_policy.actions p.1).getD 0))).sum

/-- The state sweep of evaluate_policy (solver/mod.rs lines 108-128).
Terminal states (empty action map) are skipped; a non-terminal state without
a policy entry aborts the run (the .expect panic), modelled as none.  The
loop over states is modelled by structural recursion: insertion into the
fresh result map and folding with max are order-independent here. -/
def evaluate_policy_go (policy : Policy S A) (prev_state_values : List (S × ℚ))
    (discount : ℚ) : List (S × StateActions S A) → Option (List (S × ℚ) × ℚ)
  | [] => some ([], 0)
  | (state, state_actions) :: rest =>
    match evaluate_policy_go policy prev_state_values discount rest with
    | none => none
    | some (new_state_values, max_delta) =>
      if state_actions.actions = [] then some (new_state_values, max_delta)
      else
        match map_get policy.states state with
        | none => none
        | some state_policy =>
          let state_value := eval_state_value state_policy state_actions prev_state_values discount
          let prev_state_value := (map_get prev_state_values state).getD 0
          some ((state, state_value) :: new_state_values,
                max max_delta |prev_state_value - state_value|)

/-- One policy-evaluation sweep (solver/mod.rs, fn evaluate_policy).
Returns none when the code would panic (missing policy entry). -/
def evaluate_policy (env : Env S A) (policy : Policy S A)
    (prev_state_values : List (S × ℚ)) (discount : ℚ) :
    Option (List (S × ℚ) × ℚ) :=
  evaluate_policy_go policy prev_state_values discount env.states

/-- The state sweep of iterate_state_value (solver/mod.rs lines 143-157).
The new value is the best action value; note the delta is the signed
difference best - prev, with no absolute value (line 156). -/
def iterate_state_value_go (prev_state_values : List (S × ℚ)) (discount : ℚ) :
    List (S × StateActions S A) → List (S × ℚ) × ℚ
  | [] => ([], 0)
  | (state, state_actions) :: rest =>
    let acc := iterate_state_value_go prev_state_values discount rest
    if state_actions.actions = [] then acc
    else
      let best_action_value :=
        (fold_max (state_actions.actions.map (fun p =>
          get_action_value p.2 prev_state_values discount))).getD 0
      let prev_state_value := (map_get prev_state_values state).getD 0
      ((state, best_action_value) :: acc.1,
       max acc.2 (best_action_value - prev_state_value))

/-- One value-iteration sweep (solver/mod.rs, fn iterate_state_value). -/
def iterate_state_value (env : Env S A) (prev_state_values : List (S × ℚ))
    (discount : ℚ) : List (S × ℚ) × ℚ :=
  iterate_state_value_go prev_state_values discount env.states

end DynamicProgramming

section DynamicProgrammingSpec

variable {S A : Type} [DecidableEq S] [DecidableEq A]

theorem map_get_eq_none_of_not_mem {K V : Type} [DecidableEq K]
    {m : List (K × V)} {k : K} (h : k ∉ m.map Prod.fst) :
    map_get m k = none := by
  cases he : map_get m k with
  | none => rfl
  | some v =>
    exact absurd (map_get_isSome_iff_mem_keys.mp (by simp [he])) h

theorem map_get_some_mem_keys {K V : Type} [DecidableEq K]
    {m : List (K × V)} {k : K} {v : V} (h : map_get m k = some v) :
    k ∈ m.map Prod.fst :=
  map_get_isSome_iff_mem_keys.mp (by simp [h])

theorem evaluate_policy_go_cons (policy : Policy S A) (prev : List (S × ℚ))
    (discount : ℚ) (s0 : S) (sa0 : StateActions S A)
    (rest : List (S × StateActions S A)) :
    evaluate_policy_go policy prev discount ((s0, sa0) :: rest) =
      match evaluate_policy_go policy prev discount rest with
      | none => none
      | some (nv, md) =>
        if sa0.actions = [] then some (nv, md)
        else
          match map_get policy.states s0 with
          | none => none
          | some ps =>
            some ((s0, eval_state_value ps sa0 prev discount) :: nv,
                  max md |(map_get prev s0).getD 0 -
                          eval_state_value ps sa0 prev discount|) := rfl

theorem evaluate_policy_go_spec (policy : Policy S A) (prev : List (S × ℚ))
    (discount : ℚ) :
    ∀ (L : List (S × StateActions S A)) (nv : List (S × ℚ)) (md : ℚ),
      (L.map Prod.fst).Nodup →
      evaluate_policy_go policy prev discount L = some (nv, md) →
      ((∀ s v, map_get nv s = some v ↔
          ∃ sa, map_get L s = some sa ∧ sa.actions ≠ [] ∧
            ∃ ps, map_get policy.states s = some ps ∧
              v = eval_state_value ps sa prev discount) ∧
       (∀ s v, map_get nv s = some v → |(map_get prev s).getD 0 - v| ≤ md) ∧
       (md = 0 ∨ ∃ s v, map_get nv s = some v ∧
          md = |(map_get prev s).getD 0 - v|)) := by
  intro L
  induction L with
  | nil =>
    intro nv md _ h
    simp only [evaluate_policy_go, Option.some.injEq, Prod.mk.injEq] at h
    obtain ⟨h1, h2⟩ := h
    subst h1
    subst h2
    refine ⟨?_, ?_, ?_⟩
    · intro s v
      simp [map_get]
    · intro s v hv
      simp [map_get] at hv
    · left
      rfl
  | cons p rest ih =>
    intro nv md hn h
    obtain ⟨s0, sa0⟩ := p
    simp only [List.map_cons, List.nodup_cons] at hn
    obtain ⟨hs0, hnr⟩ := hn
    rw [evaluate_policy_go_cons] at h
    cases hrec : evaluate_policy_go policy prev discount rest with
    | none =>
      rw [hrec] at h
      simp at h
    | some acc =>
      obtain ⟨nv2, md2⟩ := acc
      rw [hrec] at h
      dsimp only at h
      obtain ⟨ih1, ih2, ih3⟩ := ih nv2 md2 hnr hrec
      by_cases hterm : sa0.actions = []
      · rw [if_pos hterm] at h
        simp only [Option.some.injEq, Prod.mk.injEq] at h
        obtain ⟨h1, h2⟩ := h
        subst h1
        subst h2
        refine ⟨?_, ih2, ?_⟩
        · intro s v
          by_cases hs : s0 = s
          · subst hs
            constructor
            · intro hv
              obtain ⟨sa, hsa, _⟩ := (ih1 s0 v).mp hv
              rw [map_get_eq_none_of_not_mem hs0] at hsa
              exact absurd hsa (by simp)
            · intro hex
              obtain ⟨sa, hsa, hne, _⟩ := hex
              simp [map_get] at hsa
              subst hsa
              exact absurd hterm hne
          · simp only [map_get, if_neg hs]
            exact ih1 s v
        · exact ih3
      · rw [if_neg hterm] at h
        cases hps : map_get policy.states s0 with
        | none =>
          rw [hps] at h
          simp at h
        | some ps0 =>
          rw [hps] at h
          simp only [Option.some.injEq, Prod.mk.injEq] at h
          obtain ⟨h1, h2⟩ := h
          subst h1
          subst h2
          refine ⟨?_, ?_, ?_⟩
          · intro s v
            by_cases hs : s0 = s
            · subst hs
              have hl : map_get ((s0, eval_state_value ps0 sa0 prev discount) :: nv2) s0
                  = some (eval_state_value ps0 sa0 prev discount) := by
                simp [map_get]
              have hr : map_get ((s0, sa0) :: rest) s0 = some sa0 := by
                simp [map_get]
              rw [hl, hr]
              constructor
              · intro hv
                injection hv with hv2
                exact ⟨sa0, rfl, hterm, ps0, hps, hv2.symm⟩
              · intro hex
                obtain ⟨sa, hsa, hne, ps, hps2, hv⟩ := hex
                injection hsa with hsa2
                subst hsa2
                rw [hps] at hps2
                injection hps2 with hps3
                subst hps3
                exact congrArg some hv.symm
            · simp only [map_get, if_neg hs]
              exact ih1 s v
          · intro s v hv
            by_cases hs : s0 = s
            · subst hs
              have hl : map_get ((s0, eval_state_value ps0 sa0 prev discount) :: nv2) s0
                  = some (eval_state_value ps0 sa0 prev discount) := by
                simp [map_get]
              rw [hl] at hv
              injection hv with hv2
              rw [← hv2]
              exact le_max_right _ _
            · simp only [map_get, if_neg hs] at hv
              exact le_trans (ih2 s v hv) (le_max_left _ _)
          · rcases le_total |(map_get prev s0).getD 0 -
                eval_state_value ps0 sa0 prev discount| md2 with hle | hle
            · rw [max_eq_left hle]
              rcases ih3 with h0 | ⟨s, v, hsv, heq⟩
              · left
                exact h0
              · right
                refine ⟨s, v, ?_, heq⟩
                have hsk : s ∈ rest.map Prod.fst := by
                  obtain ⟨sa, hsa, _⟩ := (ih1 s v).mp hsv
                  exact map_get_some_mem_keys hsa
                have hne : s0 ≠ s := fun he => hs0 (he ▸ hsk)
                simp only [map_get, if_neg hne]
                exact hsv
            · rw [max_eq_right hle]
              right
              exact ⟨s0, eval_state_value ps0 sa0 prev discount,
                     by simp [map_get], rfl⟩

theorem eval_state_value_eq (ps : PolicyState A) (sa : StateActions S A)
    (prev : List (S × ℚ)) (discount : ℚ) :
    eval_state_value ps sa prev discount =
      (sa.actions.map (fun p =>
        ((map_get ps.actions p.1).getD 0) *
        (p.2.dest_states.map (fun q =>
          q.2.probability * (q.2.reward +
            discount * ((map_get prev q.1).getD 0)))).sum)).sum := by
  unfold eval_state_value get_action_value
  congr 1
  apply List.map_congr_left
  intro p _
  exact mul_comm _ _

end DynamicProgrammingSpec

section ClaimC1

variable {S A : Type} [DecidableEq S] [DecidableEq A]

/-- C1: evaluate_policy returns a value table with an entry for exactly the
non-terminal states (non-empty action map); each state's new value is the
Bellman expectation: sum over actions of policy probability times the sum
over destinations of probability * (reward + discount * previous value),
with every state value read from the previous table (0 when missing) and
never from the current sweep; and max_delta is the largest absolute
difference between a state's new and previous value over those states. -/
theorem evaluate_policy_bellman (env : Env S A) (policy : Policy S A)
    (prev : List (S × ℚ)) (discount : ℚ) (nv : List (S × ℚ)) (md : ℚ)
    (hn : (env.states.map Prod.fst).Nodup)
    (h : evaluate_policy env policy prev discount = some (nv, md)) :
    (∀ s v, map_get nv s = some v ↔
       ∃ sa, map_get env.states s = some sa ∧ sa.actions ≠ [] ∧
         ∃ ps, map_get policy.states s = some ps ∧
           v = (sa.actions.map (fun p =>
               ((map_get ps.actions p.1).getD 0) *
               (p.2.dest_states.map (fun q =>
                  q.2.probability *
                  (q.2.reward + discount * ((map_get prev q.1).getD 0)))).sum)).sum) ∧
    (∀ s v, map_get nv s = some v → |v - (map_get prev s).getD 0| ≤ md) ∧
    (md = 0 ∨ ∃ s v, map_get nv s = some v ∧ md = |v - (map_get prev s).getD 0|) := by
  obtain ⟨g1, g2, g3⟩ := evaluate_policy_go_spec policy prev discount env.states nv md hn h
  refine ⟨?_, ?_, ?_⟩
  · intro s v
    rw [g1 s v]
    constructor
    · rintro ⟨sa, hsa, hne, ps, hps, hv⟩
      exact ⟨sa, hsa, hne, ps, hps, by rw [hv, eval_state_value_eq]⟩
    · rintro ⟨sa, hsa, hne, ps, hps, hv⟩
      exact ⟨sa, hsa, hne, ps, hps, by rw [hv, eval_state_value_eq]⟩
  · intro s v hv
    have hb := g2 s v hv
    rwa [abs_sub_comm] at hb
  · rcases g3 with h0 | ⟨s, v, hsv, heq⟩
    · left
      exact h0
    · right
      exact ⟨s, v, hsv, by rw [heq, abs_sub_comm]⟩

/-- A two-state environment: state 0 moves to terminal state 1 with
probability 1 and reward 2; state 1 is terminal. -/
def env_w1 : Env ℕ ℕ :=
  ⟨[(0, ⟨[(0, ⟨[(1, ⟨1, 2⟩)]⟩)]⟩), (1, ⟨[]⟩)]⟩

/-- A deterministic policy for env_w1: in state 0 take action 0. -/
def policy_w1 : Policy ℕ ℕ := ⟨[(0, ⟨[(0, 1)]⟩)]⟩

theorem evaluate_policy_bellman_witness :
    (env_w1.states.map Prod.fst).Nodup ∧
    evaluate_policy env_w1 policy_w1 [] (1/2) = some ([(0, 2)], 2) ∧
    (∀ s v, map_get [((0 : ℕ), (2 : ℚ))] s = some v →
      |v - (map_get ([] : List (ℕ × ℚ)) s).getD 0| ≤ 2) :=
  ⟨by decide,
   by norm_num [evaluate_policy, evaluate_policy_go, eval_state_value,
                get_action_value, map_get, env_w1, policy_w1],
   (evaluate_policy_bellman env_w1 policy_w1 [] (1/2) [(0, 2)] 2
     (by decide)
     (by norm_num [evaluate_policy, evaluate_policy_go, eval_state_value,
                   get_action_value, map_get, env_w1, policy_w1])).2.1⟩

end ClaimC1

section ClaimC7

variable {S A : Type} [DecidableEq S] [DecidableEq A]

/-- C7: evaluate_policy aborts (returns none, modelling the .expect panic)
iff the policy lacks an entry for some non-terminal state present in the
environment; with entries for every non-terminal state it completes. -/
theorem evaluate_policy_abort_iff (env : Env S A) (policy : Policy S A)
    (prev : List (S × ℚ)) (discount : ℚ) :
    evaluate_policy env policy prev discount = none ↔
      ∃ p ∈ env.states, (p.2 : StateActions S A).actions ≠ [] ∧
        map_get policy.states p.1 = none := by
  obtain ⟨L⟩ := env
  show evaluate_policy_go policy prev discount L = none ↔ _
  induction L with
  | nil => simp [evaluate_policy_go]
  | cons p rest ih =>
    obtain ⟨s0, sa0⟩ := p
    rw [evaluate_policy_go_cons]
    cases hrec : evaluate_policy_go policy prev discount rest with
    | none =>
      dsimp only
      obtain ⟨q, hq, h1, h2⟩ := ih.mp hrec
      exact iff_of_true rfl ⟨q, List.mem_cons_of_mem _ hq, h1, h2⟩
    | some acc =>
      obtain ⟨nv2, md2⟩ := acc
      dsimp only
      by_cases hterm : sa0.actions = []
      · rw [if_pos hterm]
        constructor
        · intro hcon
          simp at hcon
        · rintro ⟨q, hq, h1, h2⟩
          rcases List.mem_cons.mp hq with hq1 | hq1
          · subst hq1
            exact absurd hterm h1
          · have hri := ih.mpr ⟨q, hq1, h1, h2⟩
            rw [hrec] at hri
            exact absurd hri (by simp)
      · rw [if_neg hterm]
        cases hpol : map_get policy.states s0 with
        | none =>
          exact iff_of_true rfl ⟨(s0, sa0), List.mem_cons_self _ _, hterm, hpol⟩
        | some ps0 =>
          dsimp only
          constructor
          · intro hcon
            simp at hcon
          · rintro ⟨q, hq, h1, h2⟩
            rcases List.mem_cons.mp hq with hq1 | hq1
            · subst hq1
              rw [hpol] at h2
              exact absurd h2 (by simp)
            · have hri := ih.mpr ⟨q, hq1, h1, h2⟩
              rw [hrec] at hri
              exact absurd hri (by simp)

end ClaimC7

section ClaimC2

variable {S A : Type} [DecidableEq S] [DecidableEq A]

theorem fold_max_eq_iff {l : List ℚ} {v : ℚ} :
    fold_max l = some v ↔ v ∈ l ∧ ∀ x ∈ l, x ≤ v := by
  constructor
  · intro h
    exact ⟨fold_max_mem h, fun x hx => fold_max_le h hx⟩
  · rintro ⟨hv, hall⟩
    cases hm : fold_max l with
    | none =>
      cases l with
      | nil => simp at hv
      | cons y rest => simp [fold_max] at hm
    | some m =>
      have h1 := fold_max_le hm hv
      have h2 := hall m (fold_max_mem hm)
      rw [le_antisymm h1 h2]

theorem iterate_state_value_go_cons (prev : List (S × ℚ)) (discount : ℚ)
    (s0 : S) (sa0 : StateActions S A) (rest : List (S × StateActions S A)) :
    iterate_state_value_go prev discount ((s0, sa0) :: rest) =
      if sa0.actions = [] then iterate_state_value_go prev discount rest
      else
        ((s0, (fold_max (sa0.actions.map (fun p =>
            get_action_value p.2 prev discount))).getD 0) ::
          (iterate_state_value_go prev discount rest).1,
         max (iterate_state_value_go prev discount rest).2
             ((fold_max (sa0.actions.map (fun p =>
                get_action_value p.2 prev discount))).getD 0 -
              (map_get prev s0).getD 0)) := rfl

theorem iterate_state_value_go_spec (prev : List (S × ℚ)) (discount : ℚ) :
    ∀ L : List (S × StateActions S A), (L.map Prod.fst).Nodup →
      ((∀ s v, map_get (iterate_state_value_go prev discount L).1 s = some v ↔
          ∃ sa, map_get L s = some sa ∧ sa.actions ≠ [] ∧
            fold_max (sa.actions.map (fun p =>
              get_action_value p.2 prev discount)) = some v) ∧
       (∀ s v, map_get (iterate_state_value_go prev discount L).1 s = some v →
          v - (map_get prev s).getD 0 ≤ (iterate_state_value_go prev discount L).2) ∧
       ((iterate_state_value_go prev discount L).2 = 0 ∨
        ∃ s v, map_get (iterate_state_value_go prev discount L).1 s = some v ∧
          (iterate_state_value_go prev discount L).2 = v - (map_get prev s).getD 0)) := by
  intro L
  induction L with
  | nil =>
    intro _
    refine ⟨?_, ?_, ?_⟩
    · intro s v
      simp [iterate_state_value_go, map_get]
    · intro s v hv
      simp [iterate_state_value_go, map_get] at hv
    · left
      rfl
  | cons p rest ih =>
    intro hn
    obtain ⟨s0, sa0⟩ := p
    simp only [List.map_cons, List.nodup_cons] at hn
    obtain ⟨hs0, hnr⟩ := hn
    obtain ⟨ih1, ih2, ih3⟩ := ih hnr
    rw [iterate_state_value_go_cons]
    by_cases hterm : sa0.actions = []
    · rw [if_pos hterm]
      refine ⟨?_, ih2, ih3⟩
      intro s v
      by_cases hs : s0 = s
      · subst hs
        constructor
        · intro hv
          obtain ⟨sa, hsa, _⟩ := (ih1 s0 v).mp hv
          rw [map_get_eq_none_of_not_mem hs0] at hsa
          exact absurd hsa (by simp)
        · rintro ⟨sa, hsa, hne, _⟩
          simp [map_get] at hsa
          subst hsa
          exact absurd hterm hne
      · simp only [map_get, if_neg hs]
        exact ih1 s v
    · rw [if_neg hterm]
      have hmapne : sa0.actions.map (fun p => get_action_value p.2 prev discount) ≠ [] := by
        simp [hterm]
      obtain ⟨best, hbest⟩ := Option.isSome_iff_exists.mp (fold_max_isSome hmapne)
      rw [hbest]
      simp only [Option.getD_some]
      refine ⟨?_, ?_, ?_⟩
      · intro s v
        by_cases hs : s0 = s
        · subst hs
          have hl : map_get ((s0, best) ::
              (iterate_state_value_go prev discount rest).1) s0 = some best := by
            simp [map_get]
          have hr : map_get ((s0, sa0) :: rest) s0 = some sa0 := by
            simp [map_get]
          rw [hl, hr]
          constructor
          · intro hv
            injection hv with hv2
            exact ⟨sa0, rfl, hterm, by rw [hbest, hv2]⟩
          · rintro ⟨sa, hsa, hne, hfm⟩
            injection hsa with hsa2
            subst hsa2
            rw [hbest] at hfm
            injection hfm with hfm2
            exact congrArg some hfm2
        · simp only [map_get, if_neg hs]
          exact ih1 s v
      · intro s v hv
        by_cases hs : s0 = s
        · subst hs
          have hl : map_get ((s0, best) ::
              (iterate_state_value_go prev discount rest).1) s0 = some best := by
            simp [map_get]
          rw [hl] at hv
          injection hv with hv2
          rw [← hv2]
          exact le_max_right _ _
        · simp only [map_get, if_neg hs] at hv
          exact le_trans (ih2 s v hv) (le_max_left _ _)
      · rcases le_total (best - (map_get prev s0).getD 0)
            (iterate_state_value_go prev discount rest).2 with hle | hle
        · rw [max_eq_left hle]
          rcases ih3 with h0 | ⟨s, v, hsv, heq⟩
          · left
            exact h0
          · right
            refine ⟨s, v, ?_, heq⟩
            have hsk : s ∈ rest.map Prod.fst := by
              obtain ⟨sa, hsa, _⟩ := (ih1 s v).mp hsv
              exact map_get_some_mem_keys hsa
            have hne : s0 ≠ s := fun he => hs0 (he ▸ hsk)
            simp only [map_get, if_neg hne]
            exact hsv
        · rw [max_eq_right hle]
          right
          exact ⟨s0, best, by simp [map_get], rfl⟩

/-- The environment for the C2 counterexample: state 0 has one action to
the terminal state 1 with probability 1 and reward 0. -/
def env_c2 : Env ℕ ℕ :=
  ⟨[(0, ⟨[(0, ⟨[(1, ⟨1, 0⟩)]⟩)]⟩), (1, ⟨[]⟩)]⟩

/-- C2 counterexample: starting from a previous value of 5 for state 0,
the new value is 0, so the largest absolute per-state change is 5, but
iterate_state_value returns max_delta = 0: line 156 of solver/mod.rs folds
the signed difference (new - prev) with no .abs(), so decreases are lost. -/
theorem iterate_state_value_delta_counterexample :
    iterate_state_value env_c2 [(0, 5)] 1 = ([(0, 0)], 0) ∧
    map_get [((0 : ℕ), (5 : ℚ))] 0 = some 5 ∧
    ¬ ((0 : ℚ) = |(0 : ℚ) - 5|) := by
  refine ⟨?_, by norm_num [map_get], by norm_num⟩
  norm_num [iterate_state_value, iterate_state_value_go, fold_max,
            get_action_value, map_get, env_c2]

/-- C2 amended: iterate_state_value performs the same sweep as
evaluate_policy but sets each non-terminal state's new value to the maximum
over actions of the action value (Bellman optimality, no policy input); the
returned max_delta is the maximum of 0 and the largest SIGNED per-state
change (new minus previous) over the swept states — the code takes no
absolute value, so value decreases do not register in max_delta. -/
theorem iterate_state_value_optimality (env : Env S A) (prev : List (S × ℚ))
    (discount : ℚ) (nv : List (S × ℚ)) (md : ℚ)
    (hn : (env.states.map Prod.fst).Nodup)
    (h : iterate_state_value env prev discount = (nv, md)) :
    (∀ s v, map_get nv s = some v ↔
       ∃ sa, map_get env.states s = some sa ∧ sa.actions ≠ [] ∧
         v ∈ sa.actions.map (fun p => get_action_value p.2 prev discount) ∧
         ∀ x ∈ sa.actions.map (fun p => get_action_value p.2 prev discount),
           x ≤ v) ∧
    (∀ s v, map_get nv s = some v → v - (map_get prev s).getD 0 ≤ md) ∧
    (md = 0 ∨ ∃ s v, map_get nv s = some v ∧ md = v - (map_get prev s).getD 0) := by
  obtain ⟨g1, g2, g3⟩ := iterate_state_value_go_spec prev discount env.states hn
  have h1 : (iterate_state_value_go prev discount env.states).1 = nv :=
    congrArg Prod.fst h
  have h2 : (iterate_state_value_go prev discount env.states).2 = md :=
    congrArg Prod.snd h
  subst h1
  subst h2
  refine ⟨?_, g2, g3⟩
  intro s v
  rw [g1 s v]
  constructor
  · rintro ⟨sa, hsa, hne, hfm⟩
    obtain ⟨hmem, hall⟩ := fold_max_eq_iff.mp hfm
    exact ⟨sa, hsa, hne, hmem, hall⟩
  · rintro ⟨sa, hsa, hne, hmem, hall⟩
    exact ⟨sa, hsa, hne, fold_max_eq_iff.mpr ⟨hmem, hall⟩⟩

theorem iterate_state_value_optimality_witness :
    (env_c2.states.map Prod.fst).Nodup ∧
    iterate_state_value env_c2 [(0, 5)] 1 = ([(0, 0)], 0) ∧
    (∀ s v, map_get [((0 : ℕ), (0 : ℚ))] s = some v →
      v - (map_get [((0 : ℕ), (5 : ℚ))] s).getD 0 ≤ 0) :=
  ⟨by decide,
   by norm_num [iterate_state_value, iterate_state_value_go, fold_max,
                get_action_value, map_get, env_c2],
   (iterate_state_value_optimality env_c2 [(0, 5)] 1 [(0, 0)] 0
     (by decide)
     (by norm_num [iterate_state_value, iterate_state_value_go, fold_max,
                   get_action_value, map_get, env_c2])).2.1⟩

end ClaimC2

section ClaimC3

variable {S A : Type} [DecidableEq S] [DecidableEq A]

/-- The greedy policy for one non-terminal state (solver/mod.rs lines
200-232): the maximum action value, the actions within 1e-6 of it, and a
uniform 1/len distribution over those actions. -/
def greedy_policy_state (sa : StateActions S A) (state_values : List (S × ℚ))
    (discount : ℚ) : PolicyState A :=
  let max_action_reward :=
    (fold_max (sa.actions.map (fun p =>
      get_action_value p.2 state_values discount))).getD 0
  let actions := sa.actions.filter (fun p =>
    decide (|get_action_value p.2 state_values discount - max_action_reward| <
      1 / 1000000))
  ⟨actions.map (fun p => (p.1, 1 / (actions.length : ℚ)))⟩

/-- The state loop of make_greedy_policy (solver/mod.rs lines 195-233):
terminal states are skipped, each non-terminal state gets its greedy
distribution. -/
def make_greedy_policy_go (state_values : List (S × ℚ)) (discount : ℚ) :
    List (S × StateActions S A) → List (S × PolicyState A)
  | [] => []
  | (state, state_actions) :: rest =>
    if state_actions.actions = [] then
      make_greedy_policy_go state_values discount rest
    else
      (state, greedy_policy_state state_actions state_values discount) ::
        make_greedy_policy_go state_values discount rest

/-- solver/mod.rs, fn make_greedy_policy. -/
def make_greedy_policy (env : Env S A) (state_values : List (S × ℚ))
    (discount : ℚ) : Policy S A :=
  ⟨make_greedy_policy_go state_values discount env.states⟩

theorem make_greedy_policy_go_get (state_values : List (S × ℚ)) (discount : ℚ) :
    ∀ (L : List (S × StateActions S A)) (s : S) (sa : StateActions S A),
      map_get L s = some sa → sa.actions ≠ [] →
      map_get (make_greedy_policy_go state_values discount L) s =
        some (greedy_policy_state sa state_values discount) := by
  intro L
  induction L with
  | nil =>
    intro s sa h
    simp [map_get] at h
  | cons p rest ih =>
    intro s sa h hne
    obtain ⟨s0, sa0⟩ := p
    by_cases hs : s0 = s
    · subst hs
      have hl : map_get ((s0, sa0) :: rest) s0 = some sa0 := by
        simp [map_get]
      rw [hl] at h
      injection h with h2
      subst h2
      rw [make_greedy_policy_go, if_neg hne]
      simp [map_get]
    · simp only [map_get, if_neg hs] at h
      rw [make_greedy_policy_go]
      by_cases hterm : sa0.actions = []
      · rw [if_pos hterm]
        exact ih s sa h hne
      · rw [if_neg hterm]
        simp only [map_get, if_neg hs]
        exact ih s sa h hne

theorem map_get_const_map {A B C : Type} [DecidableEq A]
    (l : List (A × B)) (c : C) (a : A) :
    map_get (l.map (fun p => (p.1, c))) a =
      if a ∈ l.map Prod.fst then some c else none := by
  induction l with
  | nil => simp [map_get]
  | cons p rest ih =>
    obtain ⟨a2, b2⟩ := p
    by_cases h : a2 = a
    · subst h
      simp [map_get]
    · have hstep : map_get (((a2, b2) :: rest).map (fun p => (p.1, c))) a
          = map_get (rest.map (fun p => (p.1, c))) a := by
        simp [map_get, h]
      rw [hstep, ih]
      by_cases hm : a ∈ rest.map Prod.fst
      · rw [if_pos hm,
            if_pos (show a ∈ ((a2, b2) :: rest).map Prod.fst by simp [hm])]
      · rw [if_neg hm,
            if_neg (show a ∉ ((a2, b2) :: rest).map Prod.fst by
              simp [hm, Ne.symm h])]

/-- C3: in the policy returned by make_greedy_policy every non-terminal
state is present; every action assigned nonzero probability has an action
value within 1e-6 of the state's maximum action value; the mass is split
uniformly, each tied action receiving 1/k where k is the number of actions
within 1e-6 of the maximum (and every tied action receives it — no tied
action is singled out). -/
theorem make_greedy_policy_sound (env : Env S A) (state_values : List (S × ℚ))
    (discount : ℚ)
    (hna : ∀ p ∈ env.states, ((p.2 : StateActions S A).actions.map Prod.fst).Nodup) :
    ∀ (s : S) (sa : StateActions S A),
      map_get env.states s = some sa → sa.actions ≠ [] →
      ∃ ps, map_get (make_greedy_policy env state_values discount).states s = some ps ∧
        ∃ mx, mx ∈ sa.actions.map (fun p => get_action_value p.2 state_values discount) ∧
          (∀ x ∈ sa.actions.map (fun p => get_action_value p.2 state_values discount), x ≤ mx) ∧
          (∀ a pr, map_get ps.actions a = some pr → pr ≠ 0 →
            ∃ ar, map_get sa.actions a = some ar ∧
              |get_action_value ar state_values discount - mx| < 1 / 1000000 ∧
              pr = 1 / (((sa.actions.filter (fun p =>
                decide (|get_action_value p.2 state_values discount - mx| <
                  1 / 1000000))).length : ℚ))) ∧
          (∀ a ar, map_get sa.actions a = some ar →
            |get_action_value ar state_values discount - mx| < 1 / 1000000 →
            map_get ps.actions a = some (1 / (((sa.actions.filter (fun p =>
              decide (|get_action_value p.2 state_values discount - mx| <
                1 / 1000000))).length : ℚ)))) := by
  intro s sa hget hne
  have hkeys : (sa.actions.map Prod.fst).Nodup := hna (s, sa) (map_get_mem hget) 
  refine ⟨greedy_policy_state sa state_values discount, ?_, ?_⟩
  · exact make_greedy_policy_go_get state_values discount env.states s sa hget hne
  · have hmapne : sa.actions.map (fun p => get_action_value p.2 state_values discount) ≠ [] := by
      simp [hne]
    obtain ⟨mx, hmx⟩ := Option.isSome_iff_exists.mp (fold_max_isSome hmapne)
    refine ⟨mx, fold_max_mem hmx, fun x hx => fold_max_le hmx hx, ?_, ?_⟩
    · intro a pr hpr _
      have hps : (greedy_policy_state sa state_values discount).actions =
          (sa.actions.filter (fun p =>
            decide (|get_action_value p.2 state_values discount - mx| < 1 / 1000000))).map
            (fun p => (p.1, 1 / (((sa.actions.filter (fun p =>
              decide (|get_action_value p.2 state_values discount - mx| <
                1 / 1000000))).length : ℚ)))) := by
        unfold greedy_policy_state
        rw [hmx]
        rfl
      rw [hps, map_get_const_map] at hpr
      by_cases hmem : a ∈ (sa.actions.filter (fun p =>
          decide (|get_action_value p.2 state_values discount - mx| < 1 / 1000000))).map Prod.fst
      · rw [if_pos hmem] at hpr
        injection hpr with hpr2
        obtain ⟨p, hp, hpa⟩ := List.mem_map.mp hmem
        obtain ⟨hpin, hppred⟩ := List.mem_filter.mp hp
        refine ⟨p.2, ?_, ?_, hpr2.symm⟩
        · have : (a, p.2) ∈ sa.actions := by
            rw [← hpa]
            exact hpin
          exact map_get_of_mem_nodup hkeys this
        · exact of_decide_eq_true hppred
      · rw [if_neg hmem] at hpr
        exact absurd hpr (by simp)
    · intro a ar har hclose
      have hps : (greedy_policy_state sa state_values discount).actions =
          (sa.actions.filter (fun p =>
            decide (|get_action_value p.2 state_values discount - mx| < 1 / 1000000))).map
            (fun p => (p.1, 1 / (((sa.actions.filter (fun p =>
              decide (|get_action_value p.2 state_values discount - mx| <
                1 / 1000000))).length : ℚ)))) := by
        unfold greedy_policy_state
        rw [hmx]
        rfl
      rw [hps, map_get_const_map]
      have hmem : a ∈ (sa.actions.filter (fun p =>
          decide (|get_action_value p.2 state_values discount - mx| < 1 / 1000000))).map Prod.fst := by
        refine List.mem_map.mpr ⟨(a, ar), ?_, rfl⟩
        refine List.mem_filter.mpr ⟨map_get_mem har, ?_⟩
        exact decide_eq_true hclose
      rw [if_pos hmem]

end ClaimC3

section ClaimC3Witness

/-- A deterministic transition to state 1 with reward 3, used to build a
two-way tie. -/
def ar_w3 : ActionResult ℕ := ⟨[(1, ⟨1, 3⟩)]⟩

/-- A state with two actions of identical action value (a tie). -/
def sa_w3 : StateActions ℕ ℕ := ⟨[(0, ar_w3), (1, ar_w3)]⟩

/-- Environment with state 0 (tied actions) and terminal state 1. -/
def env_w3 : Env ℕ ℕ := ⟨[(0, sa_w3), (1, ⟨[]⟩)]⟩

theorem make_greedy_policy_sound_witness :
    ((∀ p ∈ env_w3.states, ((p.2 : StateActions ℕ ℕ).actions.map Prod.fst).Nodup) ∧
     map_get env_w3.states 0 = some sa_w3 ∧ sa_w3.actions ≠ []) ∧
    (∃ ps, map_get (make_greedy_policy env_w3 [] 1).states 0 = some ps ∧
      ∃ mx, mx ∈ sa_w3.actions.map (fun p => get_action_value p.2 [] 1) ∧
        (∀ x ∈ sa_w3.actions.map (fun p => get_action_value p.2 [] 1), x ≤ mx) ∧
        (∀ a pr, map_get ps.actions a = some pr → pr ≠ 0 →
          ∃ ar, map_get sa_w3.actions a = some ar ∧
            |get_action_value ar [] 1 - mx| < 1 / 1000000 ∧
            pr = 1 / (((sa_w3.actions.filter (fun p =>
              decide (|get_action_value p.2 [] 1 - mx| < 1 / 1000000))).length : ℚ))) ∧
        (∀ a ar, map_get sa_w3.actions a = some ar →
          |get_action_value ar [] 1 - mx| < 1 / 1000000 →
          map_get ps.actions a = some (1 / (((sa_w3.actions.filter (fun p =>
            decide (|get_action_value p.2 [] 1 - mx| < 1 / 1000000))).length : ℚ))))) :=
  ⟨⟨by decide, by decide, by decide⟩,
   make_greedy_policy_sound env_w3 [] 1 (by decide) 0 sa_w3 (by decide) (by decide)⟩

end ClaimC3Witness

section ClaimC4

variable {S A : Type} [DecidableEq S] [DecidableEq A]

/-- Expected returns from a state under the ε-greedy policy derived from
its action values (solver/td.rs, fn expected_returns).  A single action has
probability 1; otherwise greedy actions (within 1e-6 of the maximum) get
ε/|A| + (1−ε)/|greedy| and the others ε/|A|. -/
def expected_returns (state_action_values : List (A × ℚ))
    (exploration_fraction : ℚ) : ℚ :=
  if state_action_values.length = 1 then
    ((state_action_values.head?).map Prod.snd).getD 0
  else
    let max_value := (fold_max (state_action_values.map Prod.snd)).getD 0
    let greedy_actions_count := (state_action_values.filter (fun p =>
      decide (|p.2 - max_value| < 1 / 1000000))).length
    let others_probability :=
      exploration_fraction / (state_action_values.length : ℚ)
    let greedy_probability := others_probability +
      (1 - exploration_fraction) / (greedy_actions_count : ℚ)
    (state_action_values.map (fun p =>
      if |p.2 - max_value| < 1 / 1000000 then greedy_probability * p.2
      else others_probability * p.2)).sum

/-- Q(S, A) with both lookups defaulting to 0
(solver/td.rs lines 118-120). -/
def q_lookup (action_values : List (S × List (A × ℚ))) (s : S) (a : A) : ℚ :=
  ((map_get action_values s).map (fun av => (map_get av a).getD 0)).getD 0

/-- Nested action-value lookup. -/
def lookup2 (action_values : List (S × List (A × ℚ))) (s : S) (a : A) :
    Option ℚ :=
  (map_get action_values s).bind (fun m => map_get m a)

/-- One TD update of find_action_values_expected_sarsa
(solver/td.rs lines 118-157): on a terminal transition the bootstrap term
is dropped; otherwise the expected returns of the successor state (0 when
unexplored) are discounted into the target. -/
def sarsa_step (action_values : List (S × List (A × ℚ))) (state : S)
    (action : A) (maybe_new_state : Option S)
    (reward discount exploration_fraction alpha : ℚ) :
    List (S × List (A × ℚ)) :=
  let state_action_value := q_lookup action_values state action
  match maybe_new_state with
  | none =>
    map_insert action_values state
      (map_insert ((map_get action_values state).getD []) action
        (state_action_value + alpha * (reward - state_action_value)))
  | some new_state =>
    let returns := ((map_get action_values new_state).map
      (fun av => expected_returns av exploration_fraction)).getD 0
    map_insert action_values state
      (map_insert ((map_get action_values state).getD []) action
        (state_action_value +
          alpha * (reward + discount * returns - state_action_value)))

/-- C4: for a non-empty action-value map the expected-SARSA bootstrap
expectation equals the sum over actions of probability times Q-value,
where actions within 1e-6 of the maximal Q-value get probability
(1−ε)/|greedy set| + ε/|A| and the others ε/|A|; and on a terminal
transition the bootstrap term is dropped: Q(s,a) ← Q(s,a) + α(R − Q(s,a)). -/
theorem expected_sarsa_expectation (savs : List (A × ℚ)) (ε : ℚ)
    (av : List (S × List (A × ℚ))) (s : S) (a : A) (r γ α : ℚ)
    (h : savs ≠ []) :
    (∃ mx, mx ∈ savs.map Prod.snd ∧ (∀ x ∈ savs.map Prod.snd, x ≤ mx) ∧
      expected_returns savs ε = (savs.map (fun p =>
        (if |p.2 - mx| < 1 / 1000000
         then (1 - ε) / (((savs.filter (fun q =>
                decide (|q.2 - mx| < 1 / 1000000))).length : ℚ)) +
              ε / ((savs.length : ℚ))
         else ε / ((savs.length : ℚ))) * p.2)).sum) ∧
    lookup2 (sarsa_step av s a none r γ ε α) s a =
      some (q_lookup av s a + α * (r - q_lookup av s a)) := by
  constructor
  · have hmapne : savs.map Prod.snd ≠ [] := by simp [h]
    obtain ⟨mx, hmx⟩ := Option.isSome_iff_exists.mp (fold_max_isSome hmapne)
    refine ⟨mx, fold_max_mem hmx, fun x hx => fold_max_le hmx hx, ?_⟩
    unfold expected_returns
    by_cases hlen : savs.length = 1
    · rw [if_pos hlen]
      cases savs with
      | nil => exact absurd rfl h
      | cons p0 rest =>
        cases rest with
        | cons q0 r2 => simp at hlen
        | nil =>
          have hmx1 : mx = p0.2 := by
            have := fold_max_mem hmx
            simpa using this
          subst hmx1
          have hc : |p0.2 - p0.2| < 1 / 1000000 := by
            rw [sub_self, abs_zero]
            norm_num
          simp [hc]
    · rw [if_neg hlen]
      rw [hmx]
      simp only [Option.getD_some]
      congr 1
      apply List.map_congr_left
      intro p _
      by_cases hc : |p.2 - mx| < 1 / 1000000
      · rw [if_pos hc, if_pos hc]
        ring
      · rw [if_neg hc, if_neg hc]
  · unfold sarsa_step lookup2
    dsimp only
    rw [map_get_insert_self]
    dsimp only [Option.bind]
    rw [map_get_insert_self]

/-- Concrete action values for the C4 witness: two actions with Q-values
1 and 0. -/
def savs_w4 : List (ℕ × ℚ) := [(0, 1), (1, 0)]

theorem expected_sarsa_expectation_witness :
    savs_w4 ≠ [] ∧
    ((∃ mx, mx ∈ savs_w4.map Prod.snd ∧
        (∀ x ∈ savs_w4.map Prod.snd, x ≤ mx) ∧
        expected_returns savs_w4 (1/2) = (savs_w4.map (fun p =>
          (if |p.2 - mx| < 1 / 1000000
           then (1 - (1/2 : ℚ)) / (((savs_w4.filter (fun q =>
                  decide (|q.2 - mx| < 1 / 1000000))).length : ℚ)) +
                (1/2 : ℚ) / ((savs_w4.length : ℚ))
           else (1/2 : ℚ) / ((savs_w4.length : ℚ))) * p.2)).sum) ∧
      lookup2 (sarsa_step ([] : List (ℕ × List (ℕ × ℚ))) 0 0 none 3 1 (1/2) (1/2)) 0 0 =
        some (q_lookup ([] : List (ℕ × List (ℕ × ℚ))) 0 0 +
          (1/2) * (3 - q_lookup ([] : List (ℕ × List (ℕ × ℚ))) 0 0))) :=
  ⟨by decide, expected_sarsa_expectation savs_w4 (1/2) [] 0 0 3 1 (1/2) (by decide)⟩

end ClaimC4

section ClaimC5

variable {S A : Type} [DecidableEq S] [DecidableEq A]

/-- A running average with its sample count
(solver/monte_carlo.rs, struct ValueEstimate). -/
structure ValueEstimate where
  avg : ℚ
  count : ℕ
deriving DecidableEq

/-- solver/monte_carlo.rs, ValueEstimate::update:
avg ← (avg * count + value) / (count + 1), count ← count + 1. -/
def ValueEstimate.update (e : ValueEstimate) (value : ℚ) : ValueEstimate :=
  ⟨(e.avg * (e.count : ℚ) + value) / ((e.count : ℚ) + 1), e.count + 1⟩

/-- The episode-processing loop of Monte Carlo evaluate_policy
(solver/monte_carlo.rs lines 79-90), with the episode already reversed:
the loop pops entries from the back, folds the return as
returns ← returns * discount + reward, and updates a state's estimate only
when the state enters the deduplication set for the first time. -/
def mc_episode_go (discount : ℚ) :
    List (S × ValueEstimate) → List S → ℚ → List (S × A × ℚ) →
      List (S × ValueEstimate)
  | state_values, _, _, [] => state_values
  | state_values, updated_states, returns, (state, _, reward) :: rest =>
    if state ∈ updated_states then
      mc_episode_go discount state_values updated_states
        (returns * discount + reward) rest
    else
      mc_episode_go discount
        (map_insert state_values state
          (((map_get state_values state).getD ⟨0, 0⟩).update
            (returns * discount + reward)))
        (state :: updated_states) (returns * discount + reward) rest

/-- The per-episode update of Monte Carlo evaluate_policy: process the
episode from its last entry backwards with a fresh deduplication set and
zero initial return. -/
def mc_update_episode (state_values : List (S × ValueEstimate))
    (episode : List (S × A × ℚ)) (discount : ℚ) :
    List (S × ValueEstimate) :=
  mc_episode_go discount state_values [] 0 episode.reverse

/-- The return at the first occurrence of state s when scanning a
(reversed) episode while folding g ← g * discount + reward; none when s
does not occur. -/
def first_visit_return (discount : ℚ) (s : S) :
    ℚ → List (S × A × ℚ) → Option ℚ
  | _, [] => none
  | g, (s2, _, r) :: rest =>
    if s2 = s then some (g * discount + r)
    else first_visit_return discount s (g * discount + r) rest

theorem mc_episode_go_get (discount : ℚ) (s : S) :
    ∀ (l : List (S × A × ℚ)) (sv : List (S × ValueEstimate))
      (upd : List S) (g : ℚ),
      map_get (mc_episode_go (A := A) discount sv upd g l) s =
        if s ∈ upd then map_get sv s
        else
          match first_visit_return discount s g l with
          | none => map_get sv s
          | some g2 => some (((map_get sv s).getD ⟨0, 0⟩).update g2) := by
  intro l
  induction l with
  | nil =>
    intro sv upd g
    by_cases h : s ∈ upd <;>
      simp [mc_episode_go, first_visit_return, h]
  | cons p rest ih =>
    intro sv upd g
    obtain ⟨s2, a2, r2⟩ := p
    by_cases hmem : s2 ∈ upd
    · rw [show mc_episode_go (A := A) discount sv upd g ((s2, a2, r2) :: rest) =
          mc_episode_go discount sv upd (g * discount + r2) rest from by
        rw [mc_episode_go, if_pos hmem]]
      rw [ih]
      by_cases hs : s ∈ upd
      · rw [if_pos hs, if_pos hs]
      · have hne : s2 ≠ s := fun he => hs (he ▸ hmem)
        rw [if_neg hs, if_neg hs, first_visit_return, if_neg hne]
    · rw [show mc_episode_go (A := A) discount sv upd g ((s2, a2, r2) :: rest) =
          mc_episode_go discount
            (map_insert sv s2 (((map_get sv s2).getD ⟨0, 0⟩).update
              (g * discount + r2)))
            (s2 :: upd) (g * discount + r2) rest from by
        rw [mc_episode_go, if_neg hmem]]
      rw [ih]
      by_cases hs : s2 = s
      · subst hs
        rw [if_pos (List.mem_cons_self _ _), if_neg hmem,
            first_visit_return, if_pos rfl]
        rw [map_get_insert_self]
      · have hget : map_get (map_insert sv s2
            (((map_get sv s2).getD ⟨0, 0⟩).update (g * discount + r2))) s =
            map_get sv s := map_get_insert_other sv s2 s _ hs
        by_cases hs2 : s ∈ upd
        · rw [if_pos (List.mem_cons_of_mem _ hs2), if_pos hs2, hget]
        · have hnc : s ∉ s2 :: upd := by
            intro hin
            rcases List.mem_cons.mp hin with h1 | h1
            · exact hs (h1.symm)
            · exact hs2 h1
          rw [if_neg hnc, if_neg hs2, first_visit_return, if_neg hs, hget]

/-- C5: processing one Monte Carlo episode folds the return backward from
the terminal reward (G ← G*discount + reward, made explicit by
first_visit_return over the reversed episode); each state's estimate is
updated at most once, exactly at the first occurrence encountered scanning
from the end (later duplicates are skipped by the deduplication set), and
other states keep their previous estimate; each update is the incremental
mean avg ← avg + (G − avg)/(count + 1) with count incremented. -/
theorem mc_update_episode_first_visit (state_values : List (S × ValueEstimate))
    (episode : List (S × A × ℚ)) (discount : ℚ) (s : S) :
    (map_get (mc_update_episode state_values episode discount) s =
      match first_visit_return discount s 0 episode.reverse with
      | none => map_get state_values s
      | some g => some (((map_get state_values s).getD ⟨0, 0⟩).update g)) ∧
    (∀ (e : ValueEstimate) (v : ℚ),
      (e.update v).avg = e.avg + (v - e.avg) / ((e.count : ℚ) + 1) ∧
      (e.update v).count = e.count + 1) := by
  constructor
  · unfold mc_update_episode
    rw [mc_episode_go_get]
    simp
  · intro e v
    refine ⟨?_, rfl⟩
    unfold ValueEstimate.update
    have hne : ((e.count : ℚ) + 1) ≠ 0 := by positivity
    field_simp
    ring

end ClaimC5

section ClaimC9

variable {S A : Type} [DecidableEq S] [DecidableEq A]

/-- One step of Iterator::max_by over action estimates
(solver/monte_carlo.rs lines 172-176): the candidate replaces the current
maximum when its average is at least as large, so on ties the later element
wins, matching max_by returning the last maximal element. -/
def best_fold (acc y : A × ValueEstimate) : A × ValueEstimate :=
  if acc.2.avg ≤ y.2.avg then y else acc

/-- max_by over a state's action estimates; none on an empty map (where the
source unwrap would panic). -/
def best_action (actions : List (A × ValueEstimate)) :
    Option (A × ValueEstimate) :=
  match actions with
  | [] => none
  | x :: rest => some (rest.foldl best_fold x)

/-- The greedy-policy extraction at the end of Monte Carlo find_policy
(solver/monte_carlo.rs lines 168-188): each state maps to the single best
action with probability 1. -/
def find_policy_result_go :
    List (S × List (A × ValueEstimate)) → Option (List (S × PolicyState A))
  | [] => some []
  | (state, acts) :: rest =>
    match best_action acts, find_policy_result_go rest with
    | some b, some tail => some ((state, ⟨[(b.1, 1)]⟩) :: tail)
    | _, _ => none

/-- The Policy emitted by Monte Carlo find_policy from its accumulated
action-value estimates. -/
def find_policy_result (action_values : List (S × List (A × ValueEstimate))) :
    Option (Policy S A) :=
  (find_policy_result_go action_values).map Policy.mk

theorem foldl_best_fold (l : List (A × ValueEstimate)) :
    ∀ init : A × ValueEstimate,
      (l.foldl best_fold init = init ∨ l.foldl best_fold init ∈ l) ∧
      init.2.avg ≤ (l.foldl best_fold init).2.avg ∧
      ∀ x ∈ l, x.2.avg ≤ (l.foldl best_fold init).2.avg := by
  induction l with
  | nil =>
    intro init
    refine ⟨Or.inl rfl, le_refl _, ?_⟩
    intro x hx
    simp at hx
  | cons y rest ih =>
    intro init
    rw [List.foldl_cons]
    obtain ⟨ihm, ihle, ihall⟩ := ih (best_fold init y)
    have hstep : init.2.avg ≤ (best_fold init y).2.avg ∧
        y.2.avg ≤ (best_fold init y).2.avg := by
      unfold best_fold
      by_cases hc : init.2.avg ≤ y.2.avg
      · rw [if_pos hc]
        exact ⟨hc, le_refl _⟩
      · rw [if_neg hc]
        exact ⟨le_refl _, le_of_lt (lt_of_not_le hc)⟩
    refine ⟨?_, le_trans hstep.1 ihle, ?_⟩
    · rcases ihm with h | h
      · rw [h]
        unfold best_fold
        by_cases hc : init.2.avg ≤ y.2.avg
        · rw [if_pos hc]
          right
          exact List.mem_cons_self y rest
        · rw [if_neg hc]
          left
          rfl
      · right
        exact List.mem_cons_of_mem y h
    · intro x hx
      rcases List.mem_cons.mp hx with h | h
      · rw [h]
        exact le_trans hstep.2 ihle
      · exact ihall x h

theorem best_action_spec {acts : List (A × ValueEstimate)}
    {b : A × ValueEstimate} (h : best_action acts = some b) :
    b ∈ acts ∧ ∀ x ∈ acts, x.2.avg ≤ b.2.avg := by
  cases acts with
  | nil => simp [best_action] at h
  | cons x rest =>
    simp only [best_action, Option.some.injEq] at h
    subst h
    obtain ⟨hm, hle, hall⟩ := foldl_best_fold rest x
    constructor
    · rcases hm with h | h
      · rw [h]
        exact List.mem_cons_self x rest
      · exact List.mem_cons_of_mem x h
    · intro q hq
      rcases List.mem_cons.mp hq with h | h
      · rw [h]
        exact hle
      · exact hall q h

theorem find_policy_result_go_spec :
    ∀ (L : List (S × List (A × ValueEstimate)))
      (states : List (S × PolicyState A)),
      find_policy_result_go L = some states →
      ∀ p ∈ states, ∃ a : A, (p.2 : PolicyState A).actions = [(a, 1)] ∧
        ∃ acts, (p.1, acts) ∈ L ∧ ∃ e, (a, e) ∈ acts ∧
          ∀ q ∈ acts, (q.2 : ValueEstimate).avg ≤ e.avg := by
  intro L
  induction L with
  | nil =>
    intro states h p hp
    simp only [find_policy_result_go, Option.some.injEq] at h
    subst h
    simp at hp
  | cons hd rest ih =>
    intro states h p hp
    obtain ⟨s0, acts0⟩ := hd
    cases hb : best_action acts0 with
    | none =>
      rw [find_policy_result_go, hb] at h
      simp at h
    | some b =>
      cases hrec : find_policy_result_go rest with
      | none =>
        rw [find_policy_result_go, hb, hrec] at h
        simp at h
      | some tail =>
        rw [find_policy_result_go, hb, hrec] at h
        simp only [Option.some.injEq] at h
        subst h
        rcases List.mem_cons.mp hp with h1 | h1
        · subst h1
          obtain ⟨hbm, hball⟩ := best_action_spec hb
          exact ⟨b.1, rfl, acts0, List.mem_cons_self _ _, b.2,
                 by simpa using hbm, hball⟩
        · obtain ⟨a, ha, acts, hacts, e, he, hall⟩ := ih tail hrec p h1
          exact ⟨a, ha, acts, List.mem_cons_of_mem _ hacts, e, he, hall⟩

/-- C9: the Policy returned by Monte Carlo find_policy is deterministic:
every state it contains carries exactly one action with probability 1, and
that action has maximal estimated average value among all actions tracked
for the state (ties resolved to a single action, not split). -/
theorem find_policy_greedy_deterministic
    (action_values : List (S × List (A × ValueEstimate))) (pol : Policy S A)
    (h : find_policy_result action_values = some pol) :
    ∀ p ∈ pol.states, ∃ a : A, (p.2 : PolicyState A).actions = [(a, 1)] ∧
      ∃ acts, (p.1, acts) ∈ action_values ∧ ∃ e, (a, e) ∈ acts ∧
        ∀ q ∈ acts, (q.2 : ValueEstimate).avg ≤ e.avg := by
  unfold find_policy_result at h
  cases hgo : find_policy_result_go (S := S) (A := A) action_values with
  | none =>
    rw [hgo] at h
    simp at h
  | some states =>
    rw [hgo] at h
    simp only [Option.map_some'] at h
    have hp : pol.states = states := by
      injection h with h2
      rw [← h2]
    intro p hmem
    rw [hp] at hmem
    exact find_policy_result_go_spec action_values states hgo p hmem

/-- Concrete accumulated estimates for the C9 witness: state 0 tracks
action 0 with average 1 and action 1 with average 2. -/
def av_w9 : List (ℕ × List (ℕ × ValueEstimate)) :=
  [(0, [(0, ⟨1, 1⟩), (1, ⟨2, 1⟩)])]

/-- The policy find_policy extracts from av_w9: state 0 plays action 1
deterministically. -/
def pol_w9 : Policy ℕ ℕ := ⟨[(0, ⟨[(1, 1)]⟩)]⟩

theorem find_policy_greedy_deterministic_witness :
    find_policy_result av_w9 = some pol_w9 ∧
    (∀ p ∈ pol_w9.states, ∃ a : ℕ, (p.2 : PolicyState ℕ).actions = [(a, 1)] ∧
      ∃ acts, (p.1, acts) ∈ av_w9 ∧ ∃ e, (a, e) ∈ acts ∧
        ∀ q ∈ acts, (q.2 : ValueEstimate).avg ≤ e.avg) :=
  ⟨by decide, find_policy_greedy_deterministic av_w9 pol_w9 (by decide)⟩

end ClaimC9

section ClaimC8

variable {K V : Type} [LinearOrder K]

/-- Sorted insertion of one binding by key. -/
def insert_sorted (p : K × V) : List (K × V) → List (K × V)
  | [] => [p]
  | q :: rest =>
    if p.1 ≤ q.1 then p :: q :: rest else q :: insert_sorted p rest

/-- Key-sorting of the bindings, modelling the keys.sort() step of
choose_random_key (solver/mod.rs lines 66-67): with the distinct keys of a
HashMap, sorting the key list and then looking each key up is the same as
sorting the (key, value) pairs by key. -/
def sort_by_key (m : List (K × V)) : List (K × V) :=
  m.foldr insert_sorted []

theorem insert_sorted_perm (p : K × V) (l : List (K × V)) :
    (insert_sorted p l).Perm (p :: l) := by
  induction l with
  | nil => exact List.Perm.refl _
  | cons q rest ih =>
    rw [insert_sorted]
    by_cases h : p.1 ≤ q.1
    · rw [if_pos h]
    · rw [if_neg h]
      exact List.Perm.trans (List.Perm.cons q ih) (List.Perm.swap p q rest)

theorem sort_by_key_perm (m : List (K × V)) : (sort_by_key m).Perm m := by
  induction m with
  | nil => exact List.Perm.refl _
  | cons p rest ih =>
    exact List.Perm.trans (insert_sorted_perm p (sort_by_key rest))
      (List.Perm.cons p ih)

/-- The selection loop of choose_random_key (solver/mod.rs lines 70-80):
walk the sorted bindings subtracting each weight from the remaining
probability; none models falling through to the final panic. -/
def choose_random_key_go (f : V → ℚ) : ℚ → List (K × V) → Option K
  | _, [] => none
  | remaining, (k, v) :: rest =>
    if remaining ≤ f v then some k
    else choose_random_key_go f (remaining - f v) rest

/-- solver/mod.rs, fn choose_random_key, with the random draw in [0,1)
passed explicitly: scales the draw by the total weight and walks the
key-sorted bindings. -/
def choose_random_key (m : List (K × V)) (f : V → ℚ) (draw : ℚ) : Option K :=
  let total_probability := (m.map (fun p => f p.2)).sum
  choose_random_key_go f (draw * total_probability) (sort_by_key m)

theorem choose_random_key_go_some (f : V → ℚ) :
    ∀ (l : List (K × V)) (rem : ℚ), 0 ≤ rem →
      rem < (l.map (fun p => f p.2)).sum →
      ∃ k, choose_random_key_go f rem l = some k ∧ k ∈ l.map Prod.fst := by
  intro l
  induction l with
  | nil =>
    intro rem h0 h1
    simp only [List.map_nil, List.sum_nil] at h1
    exact absurd (lt_of_le_of_lt h0 h1) (lt_irrefl 0)
  | cons p rest ih =>
    intro rem h0 h1
    obtain ⟨k, v⟩ := p
    rw [choose_random_key_go]
    by_cases hc : rem ≤ f v
    · rw [if_pos hc]
      exact ⟨k, rfl, by simp⟩
    · rw [if_neg hc]
      have hlt : f v < rem := lt_of_not_le hc
      have h0n : 0 ≤ rem - f v := by linarith
      have h1n : rem - f v < (rest.map (fun p => f p.2)).sum := by
        simp only [List.map_cons, List.sum_cons] at h1
        linarith
      obtain ⟨k2, hk2, hm⟩ := ih (rem - f v) h0n h1n
      refine ⟨k2, hk2, ?_⟩
      simp only [List.map_cons]
      exact List.mem_cons_of_mem _ hm

/-- C8: for a non-empty map with strictly positive weights and a random
draw in [0, 1), choose_random_key returns one of the map's keys — the
final panic (exhausting all keys) is unreachable. -/
theorem choose_random_key_total (m : List (K × V)) (f : V → ℚ) (draw : ℚ)
    (hne : m ≠ []) (hpos : ∀ p ∈ m, 0 < f p.2)
    (h0 : 0 ≤ draw) (h1 : draw < 1) :
    ∃ k, choose_random_key m f draw = some k ∧ k ∈ m.map Prod.fst := by
  have htot : 0 < (m.map (fun p => f p.2)).sum := by
    apply List.sum_pos
    · intro x hx
      obtain ⟨p, hp, he⟩ := List.mem_map.mp hx
      exact he ▸ hpos p hp
    · simp [hne]
  have hsum : ((sort_by_key m).map (fun p => f p.2)).sum =
      (m.map (fun p => f p.2)).sum :=
    List.Perm.sum_eq (List.Perm.map _ (sort_by_key_perm m))
  have hr0 : 0 ≤ draw * (m.map (fun p => f p.2)).sum :=
    mul_nonneg h0 (le_of_lt htot)
  have hr1 : draw * (m.map (fun p => f p.2)).sum <
      ((sort_by_key m).map (fun p => f p.2)).sum := by
    rw [hsum]
    calc draw * (m.map (fun p => f p.2)).sum
        < 1 * (m.map (fun p => f p.2)).sum :=
          mul_lt_mul_of_pos_right h1 htot
    _ = (m.map (fun p => f p.2)).sum := one_mul _
  obtain ⟨k, hk, hmem⟩ := choose_random_key_go_some f (sort_by_key m)
    (draw * (m.map (fun p => f p.2)).sum) hr0 hr1
  refine ⟨k, hk, ?_⟩
  exact (List.Perm.mem_iff (List.Perm.map Prod.fst (sort_by_key_perm m))).mp hmem

/-- A one-binding map for the C8 witness. -/
def m_w8 : List (ℕ × ℚ) := [(0, 1)]

theorem choose_random_key_total_witness :
    (m_w8 ≠ [] ∧ (∀ p ∈ m_w8, 0 < p.2) ∧ (0 : ℚ) ≤ 1/2 ∧ (1/2 : ℚ) < 1) ∧
    (∃ k, choose_random_key m_w8 (fun v => v) (1/2) = some k ∧
      k ∈ m_w8.map Prod.fst) :=
  ⟨⟨by decide, by decide, by norm_num, by norm_num⟩,
   choose_random_key_total m_w8 (fun v => v) (1/2) (by decide) (by decide)
     (by norm_num) (by norm_num)⟩

end ClaimC8

section TileCoding

/-- A half-open interval [min, max) (solver/tile.rs, struct Bounds). -/
structure Bounds (T : Type) where
  min : T
  max : T

/-- A continuous dimension to be tiled (solver/tile.rs,
struct ContinuousDimension). -/
structure ContinuousDimension where
  bounds : Bounds ℚ
  step_count : ℕ

/-- A tile partition of one continuous dimension (solver/tile.rs,
struct ContinuousPartition). -/
structure ContinuousPartition where
  origin : ℚ
  step_size : ℚ
  step_count : ℕ

/-- A tile partition of one integer dimension (solver/tile.rs,
struct IntegerPartition). -/
structure IntegerPartition where
  origin : ℤ
  step_count : ℕ

/-- One tiling of the state space (solver/tile.rs, struct Tiling). -/
structure Tiling where
  continuous_partitions : List ContinuousPartition
  integer_partitions : List IntegerPartition
  tile_count : ℕ

/-- A set of shifted tilings (solver/tile.rs, struct TilingSet). -/
structure TilingSet where
  tilings : List Tiling

/-- solver/tile.rs, Tiling::from_dimensions_and_origin: step sizes are
(max - min)/step_count, integer partitions span (max - min) unit steps and
tile_count is the product of all per-dimension step counts. -/
def Tiling.from_dimensions_and_origin
    (continuous_dimensions : List ContinuousDimension)
    (integer_dimensions : List (Bounds ℤ)) (origin : List ℚ) : Tiling :=
  let continuous_partitions := List.zipWith (fun d o =>
    ContinuousPartition.mk o ((d.bounds.max - d.bounds.min) / (d.step_count : ℚ))
      d.step_count) continuous_dimensions origin
  let integer_partitions := integer_dimensions.map (fun b =>
    IntegerPartition.mk b.min (b.max - b.min).toNat)
  Tiling.mk continuous_partitions integer_partitions
    ((continuous_partitions.foldl (fun acc p => acc * p.step_count) 1) *
     (integer_partitions.foldl (fun acc p => acc * p.step_count) 1))

/-- The per-dimension index of an integer coordinate
(solver/tile.rs line 117): (x - origin).max(0) as usize, clamped to
step_count - 1.  Int.toNat is exactly .max(0) followed by the cast. -/
def int_index (p : IntegerPartition) (x : ℤ) : ℕ :=
  min (x - p.origin).toNat (p.step_count - 1)

/-- The per-dimension index of a continuous coordinate
(solver/tile.rs lines 124-125): ((x - origin)/step_size).max(0.0) truncated
to an integer (= floor, as the value is non-negative), clamped to
step_count - 1. -/
def cont_index (p : ContinuousPartition) (x : ℚ) : ℕ :=
  min (Int.toNat ⌊max 0 ((x - p.origin) / p.step_size)⌋) (p.step_count - 1)

/-- solver/tile.rs, Tiling::get_tile: mixed-radix flattening, iterating
integer dimensions from the last one down, then continuous dimensions from
the last one down, so the first continuous dimension varies fastest. -/
def Tiling.get_tile (t : Tiling) (pc : List ℚ) (pint : List ℤ) : ℕ :=
  ((pc.zip t.continuous_partitions).reverse).foldl
    (fun off q => off * q.2.step_count + cont_index q.2 q.1)
    (((pint.zip t.integer_partitions).reverse).foldl
      (fun off q => off * q.2.step_count + int_index q.2 q.1) 0)

/-- The tiling-construction loop of TilingSet::from_dimensions
(solver/tile.rs lines 155-163): each successive tiling's origin is shifted
by offset_step per continuous dimension. -/
def TilingSet.mk_tilings (continuous_dimensions : List ContinuousDimension)
    (integer_dimensions : List (Bounds ℤ)) (offset_step : List ℚ) :
    ℕ → List ℚ → List Tiling
  | 0, _ => []
  | n + 1, origin =>
    Tiling.from_dimensions_and_origin continuous_dimensions integer_dimensions
        origin ::
      TilingSet.mk_tilings continuous_dimensions integer_dimensions offset_step n
        (List.zipWith (fun a b => a + b) origin offset_step)

/-- solver/tile.rs, TilingSet::from_dimensions: the base origin is the
vector of minima and the per-tiling offset is step_size / count. -/
def TilingSet.from_dimensions (continuous_dimensions : List ContinuousDimension)
    (integer_dimensions : List (Bounds ℤ)) (count : ℕ) : TilingSet :=
  TilingSet.mk
    (TilingSet.mk_tilings continuous_dimensions integer_dimensions
      ((continuous_dimensions.map (fun d =>
        (d.bounds.max - d.bounds.min) / (d.step_count : ℚ))).map
          (fun h => h / (count : ℚ)))
      count (continuous_dimensions.map (fun d => d.bounds.min)))

/-- solver/tile.rs, TilingSet::count: the number of tilings. -/
def TilingSet.count (ts : TilingSet) : ℕ := ts.tilings.length

/-- solver/tile.rs, TilingSet::tile_count: total number of features. -/
def TilingSet.tile_count (ts : TilingSet) : ℕ :=
  (ts.tilings.map Tiling.tile_count).sum

/-- The loop of TilingSet::get_tiles (solver/tile.rs lines 182-188):
one tile index per tiling, offset by the cumulative tile count of the
preceding tilings. -/
def TilingSet.get_tiles_go (pc : List ℚ) (pint : List ℤ) :
    ℕ → List Tiling → List ℕ
  | _, [] => []
  | offset, t :: rest =>
    (t.get_tile pc pint + offset) ::
      TilingSet.get_tiles_go pc pint (offset + t.tile_count) rest

/-- solver/tile.rs, TilingSet::get_tiles. -/
def TilingSet.get_tiles (ts : TilingSet) (pc : List ℚ) (pint : List ℤ) :
    List ℕ :=
  TilingSet.get_tiles_go pc pint 0 ts.tilings

end TileCoding

section ClaimC6

/-- A single tiling of [0, 10) with 10 steps. -/
def ts_w6a : TilingSet := TilingSet.from_dimensions [⟨⟨0, 10⟩, 10⟩] [] 1

/-- Three tilings of [0, 10) with 10 steps plus one integer dimension of
5 steps. -/
def ts_w6b : TilingSet :=
  TilingSet.from_dimensions [⟨⟨0, 10⟩, 10⟩] [⟨0, 5⟩] 3

/-- C6: tile-coding boundary behaviour.  For the single tiling of [0,10)
in 10 steps, point 0.0 lands in tile 0, point 9.5 in tile 9, and the
out-of-range points -1.0 and 11.0 clamp to tiles 0 and 9; for the
3-tiling set over the same dimension with one 5-step integer dimension,
point (0.0, 0) lands in tile 0 of each tiling, offset by each tiling's
base index: tiles {0, 50, 100}. -/
theorem tile_coding_boundary :
    ts_w6a.get_tiles [0] [] = [0] ∧
    ts_w6a.get_tiles [19/2] [] = [9] ∧
    ts_w6a.get_tiles [-1] [] = [0] ∧
    ts_w6a.get_tiles [11] [] = [9] ∧
    ts_w6b.get_tiles [0] [0] = [0, 50, 100] := by
  refine ⟨?_, ?_, ?_, ?_, ?_⟩ <;>
    norm_num [ts_w6a, ts_w6b, TilingSet.from_dimensions, TilingSet.mk_tilings,
      TilingSet.get_tiles, TilingSet.get_tiles_go, Tiling.get_tile,
      Tiling.from_dimensions_and_origin, cont_index, int_index, max_def] <;>
    decide

end ClaimC6

section ClaimC10

theorem foldl_mul_eq_prod {α : Type} (sc : α → ℕ) :
    ∀ (l : List α) (n : ℕ),
      l.foldl (fun acc p => acc * sc p) n = n * (l.map sc).prod := by
  intro l
  induction l with
  | nil =>
    intro n
    simp
  | cons x rest ih =>
    intro n
    rw [List.foldl_cons, ih, List.map_cons, List.prod_cons, mul_assoc]

theorem foldl_radix_lt {α : Type} (sc idx : α → ℕ) :
    ∀ (l : List α) (off P : ℕ), off < P → (∀ q ∈ l, idx q < sc q) →
      l.foldl (fun o q => o * sc q + idx q) off < P * (l.map sc).prod := by
  intro l
  induction l with
  | nil =>
    intro off P h _
    simpa using h
  | cons x rest ih =>
    intro off P hoff hall
    rw [List.foldl_cons, List.map_cons, List.prod_cons, ← mul_assoc]
    have h1 : idx x < sc x := hall x (List.mem_cons_self x rest)
    have hstep : off * sc x + idx x < P * sc x := by
      have h2 : off * sc x + idx x < (off + 1) * sc x := by
        rw [add_mul, one_mul]
        exact Nat.add_lt_add_left h1 _
      exact lt_of_lt_of_le h2 (Nat.mul_le_mul_right _ hoff)
    exact ih (off * sc x + idx x) (P * sc x) hstep
      (fun q hq => hall q (List.mem_cons_of_mem x hq))

theorem index_lt_of_pos {n m : ℕ} (h : 0 < m) : min n (m - 1) < m :=
  lt_of_le_of_lt (min_le_right n (m - 1)) (Nat.sub_lt h Nat.one_pos)

theorem zipWith_fst_map {α β γ : Type} (g : α → γ) :
    ∀ (l1 : List α) (l2 : List β), l1.length ≤ l2.length →
      List.zipWith (fun a _ => g a) l1 l2 = l1.map g := by
  intro l1
  induction l1 with
  | nil =>
    intro l2 _
    simp
  | cons x rest ih =>
    intro l2 h
    cases l2 with
    | nil => simp at h
    | cons y r2 =>
      simp only [List.zipWith_cons_cons, List.map_cons]
      rw [ih r2 (by simpa using h)]

theorem fdo_cont_sc (cds : List ContinuousDimension) (ids : List (Bounds ℤ))
    (o : List ℚ) (ho : cds.length ≤ o.length) :
    (Tiling.from_dimensions_and_origin cds ids o).continuous_partitions.map
        ContinuousPartition.step_count =
      cds.map ContinuousDimension.step_count := by
  unfold Tiling.from_dimensions_and_origin
  dsimp only
  rw [List.map_zipWith]
  exact zipWith_fst_map ContinuousDimension.step_count cds o ho

theorem fdo_tile_count (cds : List ContinuousDimension) (ids : List (Bounds ℤ))
    (o : List ℚ) :
    (Tiling.from_dimensions_and_origin cds ids o).tile_count =
      ((Tiling.from_dimensions_and_origin cds ids o).continuous_partitions.map
        ContinuousPartition.step_count).prod *
      ((Tiling.from_dimensions_and_origin cds ids o).integer_partitions.map
        IntegerPartition.step_count).prod := by
  unfold Tiling.from_dimensions_and_origin
  dsimp only
  rw [foldl_mul_eq_prod, foldl_mul_eq_prod, one_mul, one_mul]

theorem get_tile_lt (t : Tiling) (pc : List ℚ) (pint : List ℤ)
    (hlc : pc.length = t.continuous_partitions.length)
    (hli : pint.length = t.integer_partitions.length)
    (hposc : ∀ p ∈ t.continuous_partitions, 0 < p.step_count)
    (hposi : ∀ p ∈ t.integer_partitions, 0 < p.step_count)
    (htc : t.tile_count =
      (t.continuous_partitions.map ContinuousPartition.step_count).prod *
      (t.integer_partitions.map IntegerPartition.step_count).prod) :
    t.get_tile pc pint < t.tile_count := by
  have hprodI : (((pint.zip t.integer_partitions).reverse).map
      (fun q => q.2.step_count)).prod =
      (t.integer_partitions.map IntegerPartition.step_count).prod := by
    rw [List.map_reverse, List.prod_reverse]
    rw [show (fun (q : ℤ × IntegerPartition) => q.2.step_count) =
        (fun p => IntegerPartition.step_count p) ∘ Prod.snd from rfl]
    rw [← List.map_map]
    rw [List.map_snd_zip pint t.integer_partitions (le_of_eq hli.symm)]
  have hprodC : (((pc.zip t.continuous_partitions).reverse).map
      (fun q => q.2.step_count)).prod =
      (t.continuous_partitions.map ContinuousPartition.step_count).prod := by
    rw [List.map_reverse, List.prod_reverse]
    rw [show (fun (q : ℚ × ContinuousPartition) => q.2.step_count) =
        (fun p => ContinuousPartition.step_count p) ∘ Prod.snd from rfl]
    rw [← List.map_map]
    rw [List.map_snd_zip pc t.continuous_partitions (le_of_eq hlc.symm)]
  have hint : (((pint.zip t.integer_partitions).reverse).foldl
      (fun off q => off * q.2.step_count + int_index q.2 q.1) 0) <
      (t.integer_partitions.map IntegerPartition.step_count).prod := by
    have := foldl_radix_lt (fun q => q.2.step_count)
      (fun q => int_index q.2 q.1)
      ((pint.zip t.integer_partitions).reverse) 0 1 Nat.one_pos ?_
    · rwa [one_mul, hprodI] at this
    · intro q hq
      obtain ⟨x, p⟩ := q
      have hq2 : p ∈ t.integer_partitions :=
        (List.of_mem_zip (List.mem_reverse.mp hq)).2
      exact index_lt_of_pos (hposi p hq2)
  have hcont := foldl_radix_lt (fun q => q.2.step_count)
    (fun q => cont_index q.2 q.1)
    ((pc.zip t.continuous_partitions).reverse)
    (((pint.zip t.integer_partitions).reverse).foldl
      (fun off q => off * q.2.step_count + int_index q.2 q.1) 0)
    ((t.integer_partitions.map IntegerPartition.step_count).prod) hint ?_
  · unfold Tiling.get_tile
    rw [htc, mul_comm]
    rwa [hprodC] at hcont
  · intro q hq
    obtain ⟨x, p⟩ := q
    have hq2 : p ∈ t.continuous_partitions :=
      (List.of_mem_zip (List.mem_reverse.mp hq)).2
    exact index_lt_of_pos (hposc p hq2)

theorem mk_tilings_mem (cds : List ContinuousDimension)
    (ids : List (Bounds ℤ)) (ostep : List ℚ) :
    ∀ (n : ℕ) (origin : List ℚ), origin.length = cds.length →
      ostep.length = cds.length →
      ∀ t ∈ TilingSet.mk_tilings cds ids ostep n origin,
        ∃ o : List ℚ, o.length = cds.length ∧
          t = Tiling.from_dimensions_and_origin cds ids o := by
  intro n
  induction n with
  | zero =>
    intro origin _ _ t ht
    simp [TilingSet.mk_tilings] at ht
  | succ m ih =>
    intro origin ho hos t ht
    rw [TilingSet.mk_tilings] at ht
    rcases List.mem_cons.mp ht with h1 | h1
    · exact ⟨origin, ho, h1⟩
    · refine ih _ ?_ hos t h1
      rw [List.length_zipWith, ho, hos, Nat.min_self]

theorem get_tiles_go_length (pc : List ℚ) (pint : List ℤ) :
    ∀ (L : List Tiling) (off : ℕ),
      (TilingSet.get_tiles_go pc pint off L).length = L.length := by
  intro L
  induction L with
  | nil =>
    intro off
    rfl
  | cons t rest ih =>
    intro off
    rw [TilingSet.get_tiles_go, List.length_cons, List.length_cons, ih]

theorem get_tiles_go_lt (pc : List ℚ) (pint : List ℤ) :
    ∀ (L : List Tiling) (off : ℕ),
      (∀ t ∈ L, t.get_tile pc pint < t.tile_count) →
      ∀ x ∈ TilingSet.get_tiles_go pc pint off L,
        x < off + (L.map Tiling.tile_count).sum := by
  intro L
  induction L with
  | nil =>
    intro off _ x hx
    simp [TilingSet.get_tiles_go] at hx
  | cons t rest ih =>
    intro off hall x hx
    rw [TilingSet.get_tiles_go] at hx
    rw [List.map_cons, List.sum_cons]
    rcases List.mem_cons.mp hx with h1 | h1
    · have := hall t (List.mem_cons_self t rest)
      omega
    · have := ih (off + t.tile_count)
        (fun q hq => hall q (List.mem_cons_of_mem t hq)) x h1
      omega

end ClaimC10

section ClaimC10Main

theorem fdo_cont_length (cds : List ContinuousDimension)
    (ids : List (Bounds ℤ)) (o : List ℚ) :
    (Tiling.from_dimensions_and_origin cds ids o).continuous_partitions.length =
      min cds.length o.length := by
  unfold Tiling.from_dimensions_and_origin
  dsimp only
  exact List.length_zipWith _ _ _

theorem fdo_int_length (cds : List ContinuousDimension)
    (ids : List (Bounds ℤ)) (o : List ℚ) :
    (Tiling.from_dimensions_and_origin cds ids o).integer_partitions.length =
      ids.length := by
  unfold Tiling.from_dimensions_and_origin
  dsimp only
  exact List.length_map _ _

theorem fdo_cont_pos (cds : List ContinuousDimension) (ids : List (Bounds ℤ))
    (o : List ℚ) (ho : cds.length ≤ o.length)
    (hc : ∀ d ∈ cds, 0 < d.step_count) :
    ∀ p ∈ (Tiling.from_dimensions_and_origin cds ids o).continuous_partitions,
      0 < p.step_count := by
  intro p hp
  have h2 : p.step_count ∈
      (Tiling.from_dimensions_and_origin cds ids o).continuous_partitions.map
        ContinuousPartition.step_count := List.mem_map_of_mem _ hp
  rw [fdo_cont_sc cds ids o ho] at h2
  obtain ⟨d, hd, he⟩ := List.mem_map.mp h2
  rw [← he]
  exact hc d hd

theorem fdo_int_pos (cds : List ContinuousDimension) (ids : List (Bounds ℤ))
    (o : List ℚ) (hi : ∀ b ∈ ids, b.min < b.max) :
    ∀ p ∈ (Tiling.from_dimensions_and_origin cds ids o).integer_partitions,
      0 < p.step_count := by
  intro p hp
  have he : (Tiling.from_dimensions_and_origin cds ids o).integer_partitions =
      ids.map (fun b => IntegerPartition.mk b.min (b.max - b.min).toNat) := rfl
  rw [he] at hp
  obtain ⟨b, hb, hbe⟩ := List.mem_map.mp hp
  rw [← hbe]
  have := hi b hb
  dsimp only
  omega

/-- C10: for a TilingSet built from dimensions with positive step counts
(continuous step_count ≥ 1, integer max > min) and any input point of the
right dimensionality — including points outside the declared bounds —
get_tiles returns exactly count() indices, one per tiling, and every index
is strictly below tile_count(), so the result always indexes validly into a
feature vector of length tile_count(). -/
theorem get_tiles_valid (cds : List ContinuousDimension)
    (ids : List (Bounds ℤ)) (n : ℕ) (pc : List ℚ) (pint : List ℤ)
    (hc : ∀ d ∈ cds, 0 < d.step_count)
    (hi : ∀ b ∈ ids, b.min < b.max)
    (hpc : pc.length = cds.length)
    (hpi : pint.length = ids.length) :
    ((TilingSet.from_dimensions cds ids n).get_tiles pc pint).length =
      (TilingSet.from_dimensions cds ids n).count ∧
    ∀ idx ∈ (TilingSet.from_dimensions cds ids n).get_tiles pc pint,
      idx < (TilingSet.from_dimensions cds ids n).tile_count := by
  constructor
  · exact get_tiles_go_length pc pint
      (TilingSet.from_dimensions cds ids n).tilings 0
  · intro idx hidx
    have hall : ∀ t ∈ (TilingSet.from_dimensions cds ids n).tilings,
        t.get_tile pc pint < t.tile_count := by
      intro t ht
      have ht2 : t ∈ TilingSet.mk_tilings cds ids
          ((cds.map (fun d =>
            (d.bounds.max - d.bounds.min) / (d.step_count : ℚ))).map
              (fun h => h / (n : ℚ)))
          n (cds.map (fun d => d.bounds.min)) := ht
      obtain ⟨o, ho, he⟩ := mk_tilings_mem cds ids
        ((cds.map (fun d =>
          (d.bounds.max - d.bounds.min) / (d.step_count : ℚ))).map
            (fun h => h / (n : ℚ)))
        n (cds.map (fun d => d.bounds.min))
        (List.length_map _ _)
        (by rw [List.length_map, List.length_map]) t ht2
      subst he
      apply get_tile_lt
      · rw [fdo_cont_length, ho, Nat.min_self]
        exact hpc
      · rw [fdo_int_length]
        exact hpi
      · exact fdo_cont_pos cds ids o (le_of_eq ho.symm) hc
      · exact fdo_int_pos cds ids o hi
      · exact fdo_tile_count cds ids o
    have := get_tiles_go_lt pc pint
      (TilingSet.from_dimensions cds ids n).tilings 0 hall idx hidx
    simpa using this

/-- Concrete dimensions for the C10 witness. -/
def cds_w10 : List ContinuousDimension := [⟨⟨0, 10⟩, 10⟩]

/-- Concrete integer dimension for the C10 witness. -/
def ids_w10 : List (Bounds ℤ) := [⟨0, 5⟩]

theorem get_tiles_valid_witness :
    ((∀ d ∈ cds_w10, 0 < d.step_count) ∧ (∀ b ∈ ids_w10, b.min < b.max)) ∧
    (((TilingSet.from_dimensions cds_w10 ids_w10 3).get_tiles [0] [0]).length =
        (TilingSet.from_dimensions cds_w10 ids_w10 3).count ∧
      ∀ idx ∈ (TilingSet.from_dimensions cds_w10 ids_w10 3).get_tiles [0] [0],
        idx < (TilingSet.from_dimensions cds_w10 ids_w10 3).tile_count) :=
  ⟨⟨by decide, by decide⟩,
   get_tiles_valid cds_w10 ids_w10 3 [0] [0] (by decide) (by decide)
     (by decide) (by decide)⟩

end ClaimC10Main
